import Mathlib

/-!
# Verification of the OBLIVION LSM storage engine core

A shallow embedding, in Lean 4, of the core data structures and algorithms of
the OBLIVION key-value storage engine (Rust), together with theorems checking
the engine's specification against the code.

Bytes are modelled as natural numbers (every byte produced by the encoders is
`< 256`); machine-integer arithmetic that can overflow is modelled with
explicit `% 2^w`.  Fallible operations (Rust panics) are modelled with
`Option`.  Each definition is translated from the corresponding Rust source:
* `MemTable` from `src/engine/memtable.rs`,
* `WriteAheadLog` encoding/recovery from `src/engine/wal.rs`,
* `BloomFilter` from `src/engine/bloom.rs`,
* `TtlIndex` from `src/engine/ttl.rs`,
* compaction from `src/engine/compaction.rs`,
* the `Oblivion` engine orchestrator from `src/engine/mod.rs`.
-/

namespace Oblivion

/-- Keys are opaque byte sequences (`Vec<u8>` in the source). -/
abbrev Key := List Nat

/-- Values are opaque byte sequences (`Vec<u8>` in the source). -/
abbrev Value := List Nat

/-! ## Little-endian 32-bit encoding (`u32::to_le_bytes` / `from_le_bytes`) -/

/-- `u32::to_le_bytes`: the four little-endian bytes of `n` (mod 2^32). -/
def toLE32 (n : Nat) : List Nat :=
  [n % 256, n / 256 % 256, n / 65536 % 256, n / 16777216 % 256]

/-- `u32::from_le_bytes`: reassemble a 32-bit value from four bytes. -/
def fromLE32 (b0 b1 b2 b3 : Nat) : Nat :=
  b0 + 256 * b1 + 65536 * b2 + 16777216 * b3

theorem toLE32_length (n : Nat) : (toLE32 n).length = 4 := rfl

theorem fromLE32_toLE32 (n : Nat) (h : n < 4294967296) :
    fromLE32 (n % 256) (n / 256 % 256) (n / 65536 % 256) (n / 16777216 % 256) = n := by
  unfold fromLE32
  omega

/-! ## CRC32 (IEEE, as computed by the `crc32fast` crate) -/

/-- One bit step of the CRC32 algorithm: shift right, conditionally XOR with
the reversed polynomial `0xEDB88320`. -/
def crc32Bit (crc : Nat) : Nat :=
  if crc % 2 = 1 then (crc / 2) ^^^ 0xEDB88320 else crc / 2

/-- Fold one byte into the running CRC32 state. -/
def crc32Byte (crc b : Nat) : Nat :=
  crc32Bit (crc32Bit (crc32Bit (crc32Bit (crc32Bit (crc32Bit (crc32Bit (crc32Bit (crc ^^^ b % 256))))))))

/-- `crc32fast::hash`: IEEE CRC32 of a byte sequence. -/
def crc32 (data : List Nat) : Nat :=
  (data.foldl crc32Byte 0xFFFFFFFF) ^^^ 0xFFFFFFFF

theorem crc32Bit_lt (crc : Nat) (h : crc < 4294967296) : crc32Bit crc < 4294967296 := by
  unfold crc32Bit
  split
  · have h1 : crc / 2 < 2 ^ 32 := by omega
    have h2 : (0xEDB88320 : Nat) < 2 ^ 32 := by norm_num
    exact Nat.xor_lt_two_pow h1 h2
  · omega

theorem crc32Byte_lt (crc b : Nat) (h : crc < 4294967296) : crc32Byte crc b < 4294967296 := by
  unfold crc32Byte
  have h0 : crc ^^^ b % 256 < 4294967296 := by
    have h1 : crc < 2 ^ 32 := h
    have h2 : b % 256 < 2 ^ 32 := by
      have : b % 256 < 256 := Nat.mod_lt _ (by norm_num)
      omega
    exact Nat.xor_lt_two_pow h1 h2
  exact crc32Bit_lt _ (crc32Bit_lt _ (crc32Bit_lt _ (crc32Bit_lt _ (crc32Bit_lt _
    (crc32Bit_lt _ (crc32Bit_lt _ (crc32Bit_lt _ h0)))))))

theorem crc32_lt (data : List Nat) : crc32 data < 4294967296 := by
  unfold crc32
  have hfold : data.foldl crc32Byte 0xFFFFFFFF < 4294967296 := by
    have general : ∀ (l : List Nat) (crc : Nat), crc < 4294967296 →
        l.foldl crc32Byte crc < 4294967296 := by
      intro l
      induction l with
      | nil => intro crc h; simpa using h
      | cons b rest ih =>
        intro crc h
        simp only [List.foldl_cons]
        exact ih _ (crc32Byte_lt _ _ h)
    exact general data _ (by norm_num)
  have h2 : (0xFFFFFFFF : Nat) < 2 ^ 32 := by norm_num
  exact Nat.xor_lt_two_pow hfold h2

/-! ## MemTable (`src/engine/memtable.rs`)

The Rust `MemTable` stores a `BTreeMap<Key, Option<Value>>` (a `None` value is
a tombstone) together with `size_bytes`.  We model the map as an association
list in which each key occurs at most once; `setEntry` replaces in place, as
`BTreeMap::insert` does.  `Nat` subtraction is saturating, exactly matching the
source's `usize::saturating_sub`. -/

/-- `BTreeMap::get`: look up the stored `Option<Value>` for a key. -/
def findEntry : List (Key × Option Value) → Key → Option (Option Value)
  | [], _ => none
  | (k', v') :: rest, k => if k' = k then some v' else findEntry rest k

/-- `BTreeMap::insert`: replace the binding for `k` if present, else add it. -/
def setEntry : List (Key × Option Value) → Key → Option Value → List (Key × Option Value)
  | [], k, v => [(k, v)]
  | (k', v') :: rest, k, v =>
    if k' = k then (k, v) :: rest else (k', v') :: setEntry rest k v

/-- The in-memory write buffer: sorted map plus approximate byte footprint. -/
structure MemTable where
  entries : List (Key × Option Value)
  size_bytes : Nat
  deriving Repr, DecidableEq

namespace MemTable

/-- `MemTable::new`. -/
def new : MemTable := ⟨[], 0⟩

/-- `MemTable::size`. -/
def size (mt : MemTable) : Nat := mt.size_bytes

/-- The byte contribution of one entry: `key.len() + value.len()` for a live
entry, `key.len()` for a tombstone. -/
def entrySize (k : Key) (v : Option Value) : Nat :=
  k.length + (v.map List.length).getD 0

/-- `MemTable::insert`: subtract the replaced entry's contribution (if the key
is present), add the new entry's `key.len() + value.len()`, store `Some v`. -/
def insert (mt : MemTable) (k : Key) (v : Value) : MemTable :=
  let sb :=
    match findEntry mt.entries k with
    | some oldVal => mt.size_bytes - (k.length + (oldVal.map List.length).getD 0)
    | none => mt.size_bytes
  ⟨setEntry mt.entries k (some v), sb + (k.length + v.length)⟩

/-- `MemTable::delete`: subtract the replaced entry's contribution (if the key
is present), add `key.len()`, store a tombstone. -/
def delete (mt : MemTable) (k : Key) : MemTable :=
  let sb :=
    match findEntry mt.entries k with
    | some oldVal => mt.size_bytes - (k.length + (oldVal.map List.length).getD 0)
    | none => mt.size_bytes
  ⟨setEntry mt.entries k none, sb + k.length⟩

/-- `MemTable::clear`. -/
def clear (_mt : MemTable) : MemTable := ⟨[], 0⟩

/-- `MemTable::get`: `Some v` for a live value, `None` for a tombstone or a
missing key. -/
def get (mt : MemTable) (k : Key) : Option Value :=
  match findEntry mt.entries k with
  | some (some v) => some v
  | some none => none
  | none => none

end MemTable

/-! ## Write-ahead log (`src/engine/wal.rs`) -/

/-- A mutation record, the only shape persisted in the WAL. -/
inductive WalOp where
  | put (k : Key) (v : Value)
  | del (k : Key)
  deriving Repr, DecidableEq

/-- `WriteAheadLog::encode_put`: op byte `0x01`, key length (LE32), key bytes,
value length (LE32), value bytes, then CRC32 of the preceding bytes (LE32). -/
def encodePut (k v : List Nat) : List Nat :=
  let body := 1 :: (toLE32 k.length ++ k ++ toLE32 v.length ++ v)
  body ++ toLE32 (crc32 body)

/-- `WriteAheadLog::encode_delete`: op byte `0x02`, key length, key bytes, a
zero value length, then CRC32 of the preceding bytes. -/
def encodeDelete (k : List Nat) : List Nat :=
  let body := 2 :: (toLE32 k.length ++ k ++ toLE32 0)
  body ++ toLE32 (crc32 body)

/-- Bytes appended to the WAL file for one operation. -/
def encodeOp : WalOp → List Nat
  | .put k v => encodePut k v
  | .del k => encodeDelete k

/-- The bytes the WAL file holds after a sequence of appends. -/
def encodeOps (ops : List WalOp) : List Nat :=
  (ops.map encodeOp).flatten

/-- Replaying one verified record during recovery: a Put is applied with
`MemTable::insert`, a Delete with `MemTable::delete`. -/
def applyOp (mt : MemTable) : WalOp → MemTable
  | .put k v => mt.insert k v
  | .del k => mt.delete k

/-- Sequential WAL replay into an empty MemTable. -/
def replay (ops : List WalOp) : MemTable :=
  ops.foldl applyOp MemTable.new

/-- One iteration of the record-walking loop of `WriteAheadLog::recover`:
parse the next record from the remaining bytes.  Each bounds check
(`cursor + n > len`) of the source is a guard here; a failed guard or a CRC
mismatch stops the walk (`none`).  On success, returns the op byte, the key,
the value, and the remaining bytes after the record. -/
def parseRecord (data : List Nat) : Option (Nat × Key × Value × List Nat) :=
  if data.length < 5 then none else
  let op := data.headD 0
  let keyLen := fromLE32 (data.getD 1 0) (data.getD 2 0) (data.getD 3 0) (data.getD 4 0)
  let r1 := data.drop 5
  if r1.length < keyLen then none else
  let key := r1.take keyLen
  let r2 := r1.drop keyLen
  if r2.length < 4 then none else
  let valLen := fromLE32 (r2.getD 0 0) (r2.getD 1 0) (r2.getD 2 0) (r2.getD 3 0)
  let r3 := r2.drop 4
  if r3.length < valLen then none else
  let value := r3.take valLen
  let r4 := r3.drop valLen
  if r4.length < 4 then none else
  let stored := fromLE32 (r4.getD 0 0) (r4.getD 1 0) (r4.getD 2 0) (r4.getD 3 0)
  let r5 := r4.drop 4
  let record := data.take (9 + keyLen + valLen)
  if stored ≠ crc32 record then none
  else some (op, key, value, r5)

theorem parseRecord_length {data : List Nat} {op : Nat} {key : Key} {value : Value}
    {rest : List Nat} (h : parseRecord data = some (op, key, value, rest)) :
    rest.length < data.length := by
  unfold parseRecord at h
  split at h
  · exact Option.noConfusion h
  dsimp only at h
  split at h
  · exact Option.noConfusion h
  split at h
  · exact Option.noConfusion h
  split at h
  · exact Option.noConfusion h
  split at h
  · exact Option.noConfusion h
  split at h
  · exact Option.noConfusion h
  simp only [Option.some.injEq, Prod.mk.injEq] at h
  obtain ⟨-, -, -, hrest⟩ := h
  subst hrest
  simp only [List.length_drop] at *
  omega

/-- The record-walking loop of `WriteAheadLog::recover`.  A verified Put
record is applied with `MemTable::insert`, a verified Delete record with
`MemTable::delete`; a parse failure or an unknown op byte stops the walk and
returns the MemTable built so far. -/
def recoverLoop (mt : MemTable) (data : List Nat) : MemTable :=
  match h : parseRecord data with
  | none => mt
  | some (op, key, value, rest) =>
    if op = 1 then recoverLoop (mt.insert key value) rest
    else if op = 2 then recoverLoop (mt.delete key) rest
    else mt
termination_by data.length
decreasing_by
  all_goals exact parseRecord_length h

/-- `WriteAheadLog::recover`, on the byte content of the WAL file (a missing
file is the empty byte string). -/
def recover (data : List Nat) : MemTable :=
  recoverLoop MemTable.new data

end Oblivion

namespace Oblivion

theorem parseRecord_record (op : Nat) (k v rest : List Nat)
    (a0 a1 a2 a3 b0 b1 b2 b3 c0 c1 c2 c3 : Nat)
    (ha : fromLE32 a0 a1 a2 a3 = k.length)
    (hb : fromLE32 b0 b1 b2 b3 = v.length)
    (hc : fromLE32 c0 c1 c2 c3 =
      crc32 (op :: a0 :: a1 :: a2 :: a3 :: (k ++ (b0 :: b1 :: b2 :: b3 :: v)))) :
    parseRecord (op :: a0 :: a1 :: a2 :: a3 :: (k ++ (b0 :: b1 :: b2 :: b3 ::
        (v ++ (c0 :: c1 :: c2 :: c3 :: rest))))) = some (op, k, v, rest) := by
  have hrecord : List.take (9 + k.length + v.length)
      (op :: a0 :: a1 :: a2 :: a3 :: (k ++ (b0 :: b1 :: b2 :: b3 ::
        (v ++ (c0 :: c1 :: c2 :: c3 :: rest))))) =
      op :: a0 :: a1 :: a2 :: a3 :: (k ++ (b0 :: b1 :: b2 :: b3 :: v)) := by
    have hshape : op :: a0 :: a1 :: a2 :: a3 :: (k ++ (b0 :: b1 :: b2 :: b3 ::
        (v ++ (c0 :: c1 :: c2 :: c3 :: rest)))) =
        (op :: a0 :: a1 :: a2 :: a3 :: (k ++ (b0 :: b1 :: b2 :: b3 :: v))) ++
          (c0 :: c1 :: c2 :: c3 :: rest) := by
      simp [List.append_assoc]
    have hlen : (op :: a0 :: a1 :: a2 :: a3 ::
        (k ++ (b0 :: b1 :: b2 :: b3 :: v))).length = 9 + k.length + v.length := by
      simp
      omega
    rw [hshape, List.take_left' hlen]
  unfold parseRecord
  simp only [List.headD_cons, List.getD_cons_zero, List.getD_cons_succ,
    List.drop_succ_cons, List.drop_zero, List.length_cons, List.length_append,
    List.drop_left, List.take_left, ha, hb, hrecord, ← hc]
  rw [if_neg (by omega), if_neg (by omega), if_neg (by omega), if_neg (by omega),
    if_neg (by omega), if_neg (by simp)]

theorem parseRecord_encodePut (k v rest : List Nat)
    (hk : k.length < 4294967296) (hv : v.length < 4294967296) :
    parseRecord (encodePut k v ++ rest) = some (1, k, v, rest) := by
  have hC := crc32_lt (1 :: (toLE32 k.length ++ k ++ toLE32 v.length ++ v))
  have hshape : encodePut k v ++ rest =
      1 :: (k.length % 256) :: (k.length / 256 % 256) :: (k.length / 65536 % 256) ::
        (k.length / 16777216 % 256) ::
        (k ++ ((v.length % 256) :: (v.length / 256 % 256) :: (v.length / 65536 % 256) ::
          (v.length / 16777216 % 256) ::
          (v ++ ((crc32 (1 :: (toLE32 k.length ++ k ++ toLE32 v.length ++ v)) % 256) ::
            (crc32 (1 :: (toLE32 k.length ++ k ++ toLE32 v.length ++ v)) / 256 % 256) ::
            (crc32 (1 :: (toLE32 k.length ++ k ++ toLE32 v.length ++ v)) / 65536 % 256) ::
            (crc32 (1 :: (toLE32 k.length ++ k ++ toLE32 v.length ++ v)) / 16777216 % 256) ::
            rest)))) := by
    simp [encodePut, toLE32, List.append_assoc]
  rw [hshape]
  refine parseRecord_record 1 k v rest _ _ _ _ _ _ _ _ _ _ _ _
    (fromLE32_toLE32 _ hk) (fromLE32_toLE32 _ hv) ?_
  refine (fromLE32_toLE32 _ hC).trans (congrArg crc32 ?_)
  simp [toLE32, List.append_assoc]

theorem parseRecord_encodeDelete (k rest : List Nat)
    (hk : k.length < 4294967296) :
    parseRecord (encodeDelete k ++ rest) = some (2, k, [], rest) := by
  have hC := crc32_lt (2 :: (toLE32 k.length ++ k ++ toLE32 0))
  have hshape : encodeDelete k ++ rest =
      2 :: (k.length % 256) :: (k.length / 256 % 256) :: (k.length / 65536 % 256) ::
        (k.length / 16777216 % 256) ::
        (k ++ (0 :: 0 :: 0 :: 0 ::
          (([] : List Nat) ++ ((crc32 (2 :: (toLE32 k.length ++ k ++ toLE32 0)) % 256) ::
            (crc32 (2 :: (toLE32 k.length ++ k ++ toLE32 0)) / 256 % 256) ::
            (crc32 (2 :: (toLE32 k.length ++ k ++ toLE32 0)) / 65536 % 256) ::
            (crc32 (2 :: (toLE32 k.length ++ k ++ toLE32 0)) / 16777216 % 256) ::
            rest)))) := by
    simp [encodeDelete, toLE32, List.append_assoc]
  rw [hshape]
  refine parseRecord_record 2 k [] rest _ _ _ _ 0 0 0 0 _ _ _ _
    (fromLE32_toLE32 _ hk) (by simp [fromLE32]) ?_
  refine (fromLE32_toLE32 _ hC).trans (congrArg crc32 ?_)
  simp [toLE32, List.append_assoc, fromLE32]

/-- Per-record well-formedness for the WAL encoders: lengths fit in the
`u32` length fields (`key.len() as u32` / `value.len() as u32`). -/
def opLenOk : WalOp → Bool
  | .put k v => decide (k.length < 4294967296) && decide (v.length < 4294967296)
  | .del k => decide (k.length < 4294967296)

theorem recoverLoop_nil (mt : MemTable) : recoverLoop mt [] = mt := by
  rw [recoverLoop]
  split
  · rfl
  · rename_i op key value rest heq
    exact Option.noConfusion heq

theorem recoverLoop_encodeOp (mt : MemTable) (op : WalOp) (rest : List Nat)
    (h : opLenOk op = true) :
    recoverLoop mt (encodeOp op ++ rest) = recoverLoop (applyOp mt op) rest := by
  cases op with
  | put k v =>
    simp only [opLenOk, Bool.and_eq_true, decide_eq_true_eq] at h
    rw [show encodeOp (.put k v) = encodePut k v from rfl, recoverLoop]
    split
    · rename_i heq
      rw [parseRecord_encodePut k v rest h.1 h.2] at heq
      exact Option.noConfusion heq
    · rename_i op' key value rest' heq
      rw [parseRecord_encodePut k v rest h.1 h.2] at heq
      simp only [Option.some.injEq, Prod.mk.injEq] at heq
      obtain ⟨hop, hkey, hval, hrest⟩ := heq
      subst hop; subst hkey; subst hval; subst hrest
      simp [applyOp]
  | del k =>
    simp only [opLenOk, decide_eq_true_eq] at h
    rw [show encodeOp (.del k) = encodeDelete k from rfl, recoverLoop]
    split
    · rename_i heq
      rw [parseRecord_encodeDelete k rest h] at heq
      exact Option.noConfusion heq
    · rename_i op' key value rest' heq
      rw [parseRecord_encodeDelete k rest h] at heq
      simp only [Option.some.injEq, Prod.mk.injEq] at heq
      obtain ⟨hop, hkey, hval, hrest⟩ := heq
      subst hop; subst hkey; subst hval; subst hrest
      simp [applyOp]

theorem recoverLoop_encodeOps (ops : List WalOp) (mt : MemTable) (tail : List Nat)
    (h : ∀ op ∈ ops, opLenOk op = true) :
    recoverLoop mt (encodeOps ops ++ tail) = recoverLoop (ops.foldl applyOp mt) tail := by
  induction ops generalizing mt with
  | nil => simp [encodeOps]
  | cons op rest ih =>
    have hop : opLenOk op = true := h op (by simp)
    have hrest : ∀ o ∈ rest, opLenOk o = true := fun o ho => h o (by simp [ho])
    have hsplit : encodeOps (op :: rest) ++ tail = encodeOp op ++ (encodeOps rest ++ tail) := by
      simp [encodeOps]
    rw [hsplit, recoverLoop_encodeOp mt op _ hop, ih _ hrest]
    simp

/-- `true` iff the record walk of `recover` stops immediately on these bytes:
a bounds check fails (torn tail), the stored CRC mismatches the computed one,
or the op byte is neither Put (1) nor Delete (2). -/
def stopsNow (data : List Nat) : Bool :=
  match parseRecord data with
  | none => true
  | some (op, _, _, _) => decide (op ≠ 1) && decide (op ≠ 2)

theorem recoverLoop_stopsNow (mt : MemTable) (data : List Nat)
    (h : stopsNow data = true) : recoverLoop mt data = mt := by
  unfold stopsNow at h
  rw [recoverLoop]
  split
  · rfl
  · rename_i op key value rest heq
    rw [heq] at h
    simp only [Bool.and_eq_true, decide_eq_true_eq] at h
    simp [h.1, h.2]

/-- Claim C2: for every finite sequence of `append_put(k,v)` and `append_delete(k)`
operations written to a WAL file (each key/value length fitting the `u32`
length field), `WriteAheadLog::recover` on that file returns a MemTable equal
to applying the same sequence of `MemTable::insert` / `MemTable::delete`, in
order, to an empty MemTable (last-writer-wins by sequential replay). -/
theorem claim_C2_recover_replays_wal (ops : List WalOp)
    (h : ∀ op ∈ ops, opLenOk op = true) :
    recover (encodeOps ops) = replay ops := by
  unfold recover replay
  have hmain := recoverLoop_encodeOps ops MemTable.new [] h
  simpa [recoverLoop_nil] using hmain

theorem claim_C2_recover_replays_wal_witness :
    (∀ op ∈ [WalOp.put [104] [119, 120], WalOp.del [104], WalOp.put [1, 2] []],
      opLenOk op = true) ∧
    recover (encodeOps [WalOp.put [104] [119, 120], WalOp.del [104], WalOp.put [1, 2] []]) =
      replay [WalOp.put [104] [119, 120], WalOp.del [104], WalOp.put [1, 2] []] :=
  ⟨by decide, claim_C2_recover_replays_wal _ (by decide)⟩

/-- Claim C3: WAL replay stops at the first record whose stored CRC mismatches,
whose op byte is neither Put (1) nor Delete (2), or whose remaining bytes are
fewer than the next field requires (torn tail); no later records are applied
and recovery returns the records applied so far.  `recover` is total in the
embedding: a partially written trailing record never causes an error
(the source returns `Ok(memtable)` on every stop path). -/
theorem claim_C3_recovery_stops_at_first_bad_record (ops : List WalOp) (tail : List Nat)
    (hops : ∀ op ∈ ops, opLenOk op = true) (htail : stopsNow tail = true) :
    recover (encodeOps ops ++ tail) = replay ops := by
  unfold recover replay
  rw [recoverLoop_encodeOps ops MemTable.new tail hops, recoverLoop_stopsNow _ _ htail]

set_option maxRecDepth 10000 in
theorem claim_C3_recovery_stops_at_first_bad_record_witness :
    ((∀ op ∈ [WalOp.put [107] [118]], opLenOk op = true) ∧
      stopsNow ([3, 0, 0, 0, 0, 0, 0, 0, 0] ++ toLE32 (crc32 [3, 0, 0, 0, 0, 0, 0, 0, 0])) = true) ∧
    recover (encodeOps [WalOp.put [107] [118]] ++
        ([3, 0, 0, 0, 0, 0, 0, 0, 0] ++ toLE32 (crc32 [3, 0, 0, 0, 0, 0, 0, 0, 0]))) =
      replay [WalOp.put [107] [118]] :=
  ⟨⟨by decide, by decide⟩, claim_C3_recovery_stops_at_first_bad_record _ _ (by decide) (by decide)⟩

/-! ## MemTable size accounting (claim C6) -/

/-- A MemTable mutation: the operations that update `size_bytes`. -/
inductive MtOp where
  | ins (k : Key) (v : Value)
  | del (k : Key)
  | clr
  deriving Repr, DecidableEq

/-- Apply one MemTable mutation. -/
def applyMtOp (mt : MemTable) : MtOp → MemTable
  | .ins k v => mt.insert k v
  | .del k => mt.delete k
  | .clr => mt.clear

/-- Apply a sequence of MemTable mutations to a MemTable. -/
def applyMtOps (mt : MemTable) (ops : List MtOp) : MemTable :=
  ops.foldl applyMtOp mt

/-- The sum of the current entries' byte contributions. -/
def sumContrib (es : List (Key × Option Value)) : Nat :=
  (es.map fun e => MemTable.entrySize e.1 e.2).sum

theorem setEntry_of_findEntry_none (es : List (Key × Option Value)) (k : Key)
    (w : Option Value) (h : findEntry es k = none) :
    setEntry es k w = es ++ [(k, w)] := by
  induction es with
  | nil => rfl
  | cons e rest ih =>
    obtain ⟨k', v'⟩ := e
    unfold findEntry at h
    unfold setEntry
    by_cases hk : k' = k
    · simp [hk] at h
    · simp only [if_neg hk] at h ⊢
      rw [ih h]
      simp

theorem sum_setEntry (es : List (Key × Option Value)) (k : Key) (w ov : Option Value)
    (h : findEntry es k = some ov) :
    MemTable.entrySize k ov ≤ sumContrib es ∧
    sumContrib (setEntry es k w) =
      sumContrib es - MemTable.entrySize k ov + MemTable.entrySize k w := by
  induction es with
  | nil => exact Option.noConfusion h
  | cons e rest ih =>
    obtain ⟨k', v'⟩ := e
    unfold findEntry at h
    unfold setEntry
    by_cases hk : k' = k
    · simp only [if_pos hk] at h ⊢
      obtain rfl : v' = ov := by simpa using h
      subst hk
      simp only [sumContrib, List.map_cons, List.sum_cons]
      constructor
      · omega
      · simp [sumContrib]
        omega
    · simp only [if_neg hk] at h ⊢
      obtain ⟨hle, hsum⟩ := ih h
      simp only [sumContrib, List.map_cons, List.sum_cons] at *
      constructor
      · omega
      · rw [hsum]
        omega

theorem insert_size_eq (mt : MemTable) (k : Key) (v : Value)
    (h : mt.size_bytes = sumContrib mt.entries) :
    (mt.insert k v).size_bytes = sumContrib (mt.insert k v).entries := by
  unfold MemTable.insert
  cases hf : findEntry mt.entries k with
  | none =>
    simp only [hf]
    rw [setEntry_of_findEntry_none mt.entries k (some v) hf]
    simp [sumContrib, MemTable.entrySize, h]
  | some ov =>
    simp only [hf]
    obtain ⟨hle, hsum⟩ := sum_setEntry mt.entries k (some v) ov hf
    rw [hsum]
    simp only [MemTable.entrySize] at *
    simp only [Option.map_some', Option.getD_some] at *
    rw [h]

theorem delete_size_eq (mt : MemTable) (k : Key)
    (h : mt.size_bytes = sumContrib mt.entries) :
    (mt.delete k).size_bytes = sumContrib (mt.delete k).entries := by
  unfold MemTable.delete
  cases hf : findEntry mt.entries k with
  | none =>
    simp only [hf]
    rw [setEntry_of_findEntry_none mt.entries k none hf]
    simp [sumContrib, MemTable.entrySize, h]
  | some ov =>
    simp only [hf]
    obtain ⟨hle, hsum⟩ := sum_setEntry mt.entries k none ov hf
    rw [hsum]
    simp only [MemTable.entrySize] at *
    simp only [Option.map_none', Option.getD_none] at *
    rw [h]
    omega

/-- Claim C6: across every sequence of MemTable `insert`, `delete` and `clear`
operations, `size()` equals the sum of the current entries' contributions
(`key.len() + value.len()` for a live entry, `key.len()` for a tombstone),
and `clear` resets `size()` to 0. -/
theorem claim_C6_memtable_size_accounting (ops : List MtOp) :
    (applyMtOps MemTable.new ops).size = sumContrib (applyMtOps MemTable.new ops).entries ∧
    (∀ mt : MemTable, (mt.clear).size = 0) := by
  refine ⟨?_, fun _ => rfl⟩
  have general : ∀ (l : List MtOp) (mt : MemTable),
      mt.size_bytes = sumContrib mt.entries →
      (applyMtOps mt l).size_bytes = sumContrib (applyMtOps mt l).entries := by
    intro l
    induction l with
    | nil => intro mt h; simpa [applyMtOps] using h
    | cons o rest ih =>
      intro mt h
      have hstep : (applyMtOp mt o).size_bytes = sumContrib (applyMtOp mt o).entries := by
        cases o with
        | ins k v => exact insert_size_eq mt k v h
        | del k => exact delete_size_eq mt k h
        | clr => rfl
      simpa [applyMtOps] using ih (applyMtOp mt o) hstep
  exact general ops MemTable.new rfl

/-! ## Bloom filter (`src/engine/bloom.rs`)

The source hashes with `DefaultHasher` (SipHash), writing the seed and then
the key into the hasher.  The spec leaves the primitive hash
implementation-defined ("deterministic and keyed by the two seeds;
consistency between insert and query is the only correctness requirement"),
so the embedding is parameterized by an arbitrary hash function
`H : seed → key → Nat`; its output is truncated to 64 bits where the source
uses `u64`.  Rust panics (index out of bounds, remainder by zero) are
modelled as `none`. -/

/-- The bloom filter state: bit array (as bytes), bit count, hash count,
inserted-element count. -/
structure BloomFilter where
  bits : List Nat
  num_bits : Nat
  num_hashes : Nat
  count : Nat
  deriving Repr, DecidableEq

/-- `BloomFilter::with_params`: explicit parameters; `num_hashes` is clamped
to `[2, 16]`, `num_bits` is not clamped at all. -/
def BloomFilter.with_params (numBits numHashes : Nat) : BloomFilter :=
  ⟨List.replicate ((numBits + 7) / 8) 0, numBits, min (max numHashes 2) 16, 0⟩

/-- `BloomFilter::new` after its floating-point sizing formulas: the `f64`
computations for the optimal bit and hash counts are abstracted as the
arbitrary inputs `rawBits` and `rawHashes` (the values of the two
`ceil() as usize/u32` casts); the integer clamps applied after them
(`.max(64)` and `.clamp(2, 16)`) are modelled exactly. -/
def BloomFilter.newFromRaw (rawBits rawHashes : Nat) : BloomFilter :=
  ⟨List.replicate ((max rawBits 64 + 7) / 8) 0, max rawBits 64,
    min (max rawHashes 2) 16, 0⟩

/-- `BloomFilter::hash_with_seed`, abstracted over the hash primitive `H`;
the result is a `u64`. -/
def hashWithSeed (H : Nat → List Nat → Nat) (key : List Nat) (seed : Nat) : Nat :=
  H seed key % 18446744073709551616

/-- `BloomFilter::hash_index`: double hashing
`(h1 + i·h2) mod num_bits` with wrapping 64-bit arithmetic.  With
`num_bits = 0` the source's `combined % (num_bits as u64)` panics with a
remainder-by-zero: modelled as `none`. -/
def hashIndex (H : Nat → List Nat → Nat) (numBits : Nat) (key : List Nat)
    (i : Nat) : Option Nat :=
  if numBits = 0 then none
  else
    let h1 := hashWithSeed H key 0
    let h2 := hashWithSeed H key 3735928559
    let combined := (h1 + (i * h2) % 18446744073709551616) % 18446744073709551616
    some (combined % numBits)

/-- The loop of `BloomFilter::insert` over hash function indices: set
`bits[bit_index / 8] |= 1 << (bit_index % 8)` for each index.  An
out-of-bounds byte index (a panic in the source) is `none`. -/
def setBitsLoop (H : Nat → List Nat → Nat) (numBits : Nat) (key : List Nat) :
    List Nat → List Nat → Option (List Nat)
  | [], bits => some bits
  | i :: is, bits =>
    match hashIndex H numBits key i with
    | none => none
    | some bitIndex =>
      let byteIndex := bitIndex / 8
      let bitOffset := bitIndex % 8
      if h : byteIndex < bits.length then
        setBitsLoop H numBits key is (bits.set byteIndex (bits[byteIndex] ||| (1 <<< bitOffset)))
      else none

/-- `BloomFilter::insert`: set the probed bits, increment `count`. -/
def BloomFilter.insert (H : Nat → List Nat → Nat) (bf : BloomFilter)
    (key : List Nat) : Option BloomFilter :=
  match setBitsLoop H bf.num_bits key (List.range bf.num_hashes) bf.bits with
  | none => none
  | some bits => some ⟨bits, bf.num_bits, bf.num_hashes, bf.count + 1⟩

/-- The loop of `BloomFilter::may_contain`: if any probed bit is clear the
key is definitely absent (`some false`); if all are set, `some true`. -/
def checkBitsLoop (H : Nat → List Nat → Nat) (numBits : Nat) (key : List Nat)
    (bits : List Nat) : List Nat → Option Bool
  | [] => some true
  | i :: is =>
    match hashIndex H numBits key i with
    | none => none
    | some bitIndex =>
      let byteIndex := bitIndex / 8
      let bitOffset := bitIndex % 8
      if h : byteIndex < bits.length then
        if bits[byteIndex] &&& (1 <<< bitOffset) = 0 then some false
        else checkBitsLoop H numBits key bits is
      else none

/-- `BloomFilter::may_contain`. -/
def BloomFilter.may_contain (H : Nat → List Nat → Nat) (bf : BloomFilter)
    (key : List Nat) : Option Bool :=
  checkBitsLoop H bf.num_bits key bf.bits (List.range bf.num_hashes)

/-- A sequence of `BloomFilter::insert` calls, stopping at the first panic. -/
def insertMany (H : Nat → List Nat → Nat) (bf : BloomFilter) :
    List (List Nat) → Option BloomFilter
  | [] => some bf
  | key :: rest =>
    match bf.insert H key with
    | none => none
    | some bf1 => insertMany H bf1 rest

/-- The probed-bit predicate: bit `bi` is set in the byte array `bits`
(the source's `bits[bi / 8] & (1 << (bi % 8)) != 0`). -/
def testB (bits : List Nat) (bi : Nat) : Prop :=
  bits.getD (bi / 8) 0 &&& (1 <<< (bi % 8)) ≠ 0

theorem and_shift_ne_zero (x t : Nat) : x &&& (1 <<< t) ≠ 0 ↔ x.testBit t = true := by
  rw [Nat.one_shiftLeft, Nat.and_two_pow]
  cases h : x.testBit t <;> simp [h]

theorem hashIndex_some (H : Nat → List Nat → Nat) (numBits : Nat) (key : List Nat)
    (i : Nat) (hm : numBits ≠ 0) :
    ∃ bi, hashIndex H numBits key i = some bi ∧ bi < numBits := by
  refine ⟨_, by rw [hashIndex, if_neg hm], ?_⟩
  exact Nat.mod_lt _ (Nat.pos_of_ne_zero hm)

theorem getD_set_same (l : List Nat) (n a d : Nat) (h : n < l.length) :
    (l.set n a).getD n d = a := by
  rw [List.getD_eq_getElem _ d (by simpa using h), List.getElem_set_self]

theorem getD_set_diff (l : List Nat) (n m a d : Nat) (h : n ≠ m) :
    (l.set n a).getD m d = l.getD m d := by
  rw [List.getD_eq_getElem?_getD, List.getElem?_set_ne h, ← List.getD_eq_getElem?_getD]

theorem testB_set_preserved (bits : List Nat) (p x bi : Nat)
    (h : testB bits bi) : testB (bits.set p (bits.getD p 0 ||| x)) bi := by
  unfold testB at *
  rw [and_shift_ne_zero] at h ⊢
  by_cases hq : p = bi / 8
  · subst hq
    by_cases hl : bi / 8 < bits.length
    · rw [getD_set_same bits (bi / 8) _ 0 hl, Nat.testBit_or, h, Bool.true_or]
    · rw [List.set_eq_of_length_le (by omega)]
      exact h
  · rw [getD_set_diff bits p _ _ 0 hq]
    exact h

theorem testB_set_self (bits : List Nat) (bi : Nat) (hlt : bi / 8 < bits.length) :
    testB (bits.set (bi / 8) (bits.getD (bi / 8) 0 ||| (1 <<< (bi % 8)))) bi := by
  unfold testB
  rw [and_shift_ne_zero, getD_set_same _ _ _ 0 hlt, Nat.testBit_or, Nat.one_shiftLeft]
  simp [Nat.testBit_two_pow_self]

theorem setBitsLoop_length (H : Nat → List Nat → Nat) (numBits : Nat) (key : List Nat)
    (is : List Nat) (bits bits' : List Nat)
    (h : setBitsLoop H numBits key is bits = some bits') : bits'.length = bits.length := by
  induction is generalizing bits with
  | nil =>
    unfold setBitsLoop at h
    simpa using (congrArg (Option.map List.length) h).symm
  | cons i is ih =>
    unfold setBitsLoop at h
    cases hh : hashIndex H numBits key i with
    | none => rw [hh] at h; exact Option.noConfusion h
    | some bitIndex =>
      rw [hh] at h
      dsimp only at h
      split at h
      · have := ih _ h
        simpa [List.length_set] using this
      · exact Option.noConfusion h

theorem setBitsLoop_preserves (H : Nat → List Nat → Nat) (numBits : Nat) (key : List Nat)
    (is : List Nat) (bits bits' : List Nat)
    (h : setBitsLoop H numBits key is bits = some bits') (bi : Nat)
    (ht : testB bits bi) : testB bits' bi := by
  induction is generalizing bits with
  | nil =>
    unfold setBitsLoop at h
    obtain rfl : bits = bits' := by simpa using h
    exact ht
  | cons i is ih =>
    unfold setBitsLoop at h
    cases hh : hashIndex H numBits key i with
    | none => rw [hh] at h; exact Option.noConfusion h
    | some bitIndex =>
      rw [hh] at h
      dsimp only at h
      split at h
      · rename_i hlt
        refine ih _ h ?_
        rw [← List.getD_eq_getElem bits 0 hlt]
        exact testB_set_preserved bits _ _ bi ht
      · exact Option.noConfusion h

theorem setBitsLoop_sets (H : Nat → List Nat → Nat) (numBits : Nat) (key : List Nat)
    (is : List Nat) (bits bits' : List Nat)
    (h : setBitsLoop H numBits key is bits = some bits') :
    ∀ i ∈ is, ∀ bi, hashIndex H numBits key i = some bi → testB bits' bi := by
  induction is generalizing bits with
  | nil => intro i hi; exact absurd hi (List.not_mem_nil i)
  | cons j is ih =>
    intro i hi bi hbi
    unfold setBitsLoop at h
    cases hh : hashIndex H numBits key j with
    | none => rw [hh] at h; exact Option.noConfusion h
    | some bitIndex =>
      rw [hh] at h
      dsimp only at h
      split at h
      · rename_i hlt
        rcases List.mem_cons.mp hi with rfl | hmem
        · have hbieq : bitIndex = bi := by rw [hh] at hbi; exact Option.some_inj.mp hbi
          subst hbieq
          refine setBitsLoop_preserves H numBits key is _ _ h bitIndex ?_
          rw [← List.getD_eq_getElem bits 0 hlt]
          exact testB_set_self bits bitIndex hlt
        · exact ih _ h i hmem bi hbi
      · exact Option.noConfusion h

theorem checkBitsLoop_true (H : Nat → List Nat → Nat) (numBits : Nat) (key : List Nat)
    (bits : List Nat) (is : List Nat)
    (h : ∀ i ∈ is, ∃ bi, hashIndex H numBits key i = some bi ∧
      bi / 8 < bits.length ∧ testB bits bi) :
    checkBitsLoop H numBits key bits is = some true := by
  induction is with
  | nil => rfl
  | cons i is ih =>
    obtain ⟨bi, hbi, hlt, ht⟩ := h i (by simp)
    unfold checkBitsLoop
    rw [hbi]
    dsimp only
    rw [dif_pos hlt]
    rw [if_neg ?_]
    · exact ih fun j hj => h j (by simp [hj])
    · rw [← List.getD_eq_getElem bits 0 hlt]
      exact ht

theorem insert_fields (H : Nat → List Nat → Nat) (bf : BloomFilter) (key : List Nat)
    (bf' : BloomFilter) (h : bf.insert H key = some bf') :
    bf'.num_bits = bf.num_bits ∧ bf'.num_hashes = bf.num_hashes ∧
    bf'.bits.length = bf.bits.length ∧
    (∀ bi, testB bf.bits bi → testB bf'.bits bi) ∧
    (∀ i ∈ List.range bf.num_hashes, ∀ bi,
      hashIndex H bf.num_bits key i = some bi → testB bf'.bits bi) := by
  unfold BloomFilter.insert at h
  cases hs : setBitsLoop H bf.num_bits key (List.range bf.num_hashes) bf.bits with
  | none => rw [hs] at h; exact Option.noConfusion h
  | some bits1 =>
    rw [hs] at h
    obtain rfl : (⟨bits1, bf.num_bits, bf.num_hashes, bf.count + 1⟩ : BloomFilter) = bf' :=
      Option.some_inj.mp h
    exact ⟨rfl, rfl, setBitsLoop_length _ _ _ _ _ _ hs,
      fun bi ht => setBitsLoop_preserves _ _ _ _ _ _ hs bi ht,
      setBitsLoop_sets _ _ _ _ _ _ hs⟩

theorem insertMany_fields (H : Nat → List Nat → Nat) (bf : BloomFilter)
    (keys : List (List Nat)) (bf' : BloomFilter) (h : insertMany H bf keys = some bf') :
    bf'.num_bits = bf.num_bits ∧ bf'.num_hashes = bf.num_hashes ∧
    bf'.bits.length = bf.bits.length ∧
    (∀ bi, testB bf.bits bi → testB bf'.bits bi) := by
  induction keys generalizing bf with
  | nil =>
    obtain rfl : bf = bf' := by simpa [insertMany] using h
    exact ⟨rfl, rfl, rfl, fun _ ht => ht⟩
  | cons k rest ih =>
    unfold insertMany at h
    cases hk : bf.insert H k with
    | none => rw [hk] at h; exact Option.noConfusion h
    | some bf1 =>
      rw [hk] at h
      obtain ⟨hnb1, hnh1, hlen1, hpres1, -⟩ := insert_fields H bf k bf1 hk
      obtain ⟨hnb2, hnh2, hlen2, hpres2⟩ := ih bf1 h
      exact ⟨hnb2.trans hnb1, hnh2.trans hnh1, hlen2.trans hlen1,
        fun bi ht => hpres2 bi (hpres1 bi ht)⟩

theorem insertMany_append (H : Nat → List Nat → Nat) (bf : BloomFilter)
    (l1 l2 : List (List Nat)) :
    insertMany H bf (l1 ++ l2) =
      match insertMany H bf l1 with
      | none => none
      | some b => insertMany H b l2 := by
  induction l1 generalizing bf with
  | nil => rfl
  | cons k l1 ih =>
    simp only [List.cons_append, insertMany]
    cases hk : bf.insert H k with
    | none => rfl
    | some bf1 => exact ih bf1

/-- Claim C4: for every BloomFilter built by `with_params` with `num_bits > 0`
(hence for every filter built by `new`, whose `num_bits` is at least 64), and
every key passed to `insert` on it, `may_contain` on that key returns `true`
after any further sequence of inserts: no false negatives, for every hash
primitive `H`. -/
theorem claim_C4_bloom_no_false_negatives (H : Nat → List Nat → Nat) (m k : Nat)
    (keys1 keys2 : List (List Nat)) (key : List Nat) (bf : BloomFilter)
    (hm : 0 < m)
    (hins : insertMany H (BloomFilter.with_params m k) (keys1 ++ key :: keys2) = some bf) :
    bf.may_contain H key = some true := by
  rw [insertMany_append] at hins
  cases h1 : insertMany H (BloomFilter.with_params m k) keys1 with
  | none => rw [h1] at hins; exact Option.noConfusion hins
  | some bf1 =>
    rw [h1] at hins
    dsimp only at hins
    unfold insertMany at hins
    cases h2 : bf1.insert H key with
    | none => rw [h2] at hins; exact Option.noConfusion hins
    | some bf2 =>
      rw [h2] at hins
      obtain ⟨hnb1, hnh1, hlen1, -⟩ :=
        insertMany_fields H (BloomFilter.with_params m k) keys1 bf1 h1
      obtain ⟨hnb2, hnh2, hlen2, -, hsets2⟩ := insert_fields H bf1 key bf2 h2
      obtain ⟨hnb3, hnh3, hlen3, hpres3⟩ := insertMany_fields H bf2 keys2 bf hins
      have hm0 : bf.num_bits = m := by
        rw [hnb3, hnb2, hnb1]
        rfl
      have hlen0 : bf.bits.length = (m + 7) / 8 := by
        rw [hlen3, hlen2, hlen1]
        simp [BloomFilter.with_params]
      unfold BloomFilter.may_contain
      apply checkBitsLoop_true
      intro i hi
      obtain ⟨bi, hbi, hblt⟩ := hashIndex_some H bf.num_bits key i (by omega)
      refine ⟨bi, hbi, ?_, ?_⟩
      · rw [hlen0]
        rw [hm0] at hblt
        omega
      · have hi1 : i ∈ List.range bf1.num_hashes := by
          rw [hnh1]
          rw [hnh3, hnh2, hnh1] at hi
          exact hi
        have hbi1 : hashIndex H bf1.num_bits key i = some bi := by
          rw [hnb1]
          rw [hnb3, hnb2, hnb1] at hbi
          exact hbi
        exact hpres3 bi (hsets2 i hi1 bi hbi1)

theorem setBitsLoop_zero_bits (H : Nat → List Nat → Nat) (key : List Nat)
    (i : Nat) (is : List Nat) (bits : List Nat) :
    setBitsLoop H 0 key (i :: is) bits = none := by
  unfold setBitsLoop
  rw [show hashIndex H 0 key i = none from if_pos rfl]

theorem checkBitsLoop_zero_bits (H : Nat → List Nat → Nat) (key : List Nat)
    (bits : List Nat) (i : Nat) (is : List Nat) :
    checkBitsLoop H 0 key bits (i :: is) = none := by
  unfold checkBitsLoop
  rw [show hashIndex H 0 key i = none from if_pos rfl]

theorem bloom_with_params_zero_panics (H : Nat → List Nat → Nat) (key : List Nat)
    (nh : Nat) :
    (BloomFilter.with_params 0 nh).insert H key = none ∧
    (BloomFilter.with_params 0 nh).may_contain H key = none := by
  obtain ⟨t, ht⟩ : ∃ t, (BloomFilter.with_params 0 nh).num_hashes = t + 1 :=
    ⟨min (max nh 2) 16 - 1, by show min (max nh 2) 16 = _; omega⟩
  have hnb : (BloomFilter.with_params 0 nh).num_bits = 0 := rfl
  constructor
  · unfold BloomFilter.insert
    rw [hnb, ht, List.range_succ_eq_map, setBitsLoop_zero_bits]
  · unfold BloomFilter.may_contain
    rw [hnb, ht, List.range_succ_eq_map, checkBitsLoop_zero_bits]

/-! ## TTL index (`src/engine/ttl.rs`)

The wall clock (`TtlIndex::now_ms`) is passed explicitly as `now`. -/

/-- `BTreeMap::get` on the expiration map. -/
def findExp : List (Key × Nat) → Key → Option Nat
  | [], _ => none
  | (k', e) :: rest, k => if k' = k then some e else findExp rest k

/-- `BTreeMap::insert` on the expiration map. -/
def setExp : List (Key × Nat) → Key → Nat → List (Key × Nat)
  | [], k, e => [(k, e)]
  | (k', e') :: rest, k, e =>
    if k' = k then (k, e) :: rest else (k', e') :: setExp rest k e

/-- Key → absolute expiration timestamp (Unix milliseconds). -/
structure TtlIndex where
  expirations : List (Key × Nat)
  deriving Repr, DecidableEq

/-- `TtlIndex::set_expiration`. -/
def TtlIndex.set_expiration (t : TtlIndex) (k : Key) (e : Nat) : TtlIndex :=
  ⟨setExp t.expirations k e⟩

/-- `TtlIndex::is_expired` at wall time `now`: `true` iff the key has an
expiration and `now >= expires_at`.  A key with no entry never expires. -/
def TtlIndex.is_expired (t : TtlIndex) (now : Nat) (k : Key) : Bool :=
  match findExp t.expirations k with
  | some e => now ≥ e
  | none => false

/-! ## The engine orchestrator (`src/engine/mod.rs`)

`Oblivion` holds the MemTable, the WAL (modelled by the byte content of its
file), the configuration's `memtable_max_size`, and `flush_count`.  The
`data_dir` path, the `sync_writes` flag (never read by the source) and the
metrics counters (pure observability) are omitted.  Note the source engine
holds no `TtlIndex` and no list of SSTable readers. -/

structure Oblivion where
  memtable : MemTable
  walBytes : List Nat
  memtable_max_size : Nat
  flush_count : Nat
  deriving Repr, DecidableEq

/-- `Oblivion::open`: recover the MemTable from the WAL file's bytes and keep
appending to that file.  `existingSstableIds` is the set of SSTable ids
already present in `data_dir`; the source never enumerates them and
initializes `flush_count: 0` unconditionally. -/
def Oblivion.openEngine (maxSize : Nat) (walBytes : List Nat)
    (existingSstableIds : List Nat) : Oblivion :=
  ⟨recover walBytes, walBytes, maxSize, 0⟩

/-- `Oblivion::get`: the read path consults only the MemTable (the source
comment marks SSTables as "(future)"; no TTL check is performed). -/
def Oblivion.get (st : Oblivion) (k : Key) : Option Value :=
  st.memtable.get k

/-- `Oblivion::maybe_flush`: if `memtable.size() >= memtable_max_size`, write
the entries through `SSTable::flush_from_memtable` (a stub that stores
nothing), truncate the WAL, clear the MemTable and increment `flush_count`. -/
def Oblivion.maybe_flush (st : Oblivion) : Oblivion :=
  if st.memtable.size ≥ st.memtable_max_size then
    ⟨st.memtable.clear, [], st.memtable_max_size, st.flush_count + 1⟩
  else st

/-- `Oblivion::put`: append to the WAL, insert into the MemTable, then
`maybe_flush`. -/
def Oblivion.put (st : Oblivion) (k : Key) (v : Value) : Oblivion :=
  (⟨st.memtable.insert k v, st.walBytes ++ encodePut k v,
    st.memtable_max_size, st.flush_count⟩ : Oblivion).maybe_flush

/-- `Oblivion::delete`: append a tombstone to the WAL, tombstone the
MemTable entry, then `maybe_flush`. -/
def Oblivion.delete (st : Oblivion) (k : Key) : Oblivion :=
  (⟨st.memtable.delete k, st.walBytes ++ encodeDelete k,
    st.memtable_max_size, st.flush_count⟩ : Oblivion).maybe_flush

/-! ## Size-tiered compaction (`src/engine/compaction.rs`) -/

/-- Metadata about an SSTable file (the `path` field is omitted). -/
structure SStableInfo where
  id : Nat
  size : Nat
  min_key : Key
  max_key : Key
  deriving Repr, DecidableEq

/-- The `while size > upper_bound` loop of
`SizeTieredCompaction::tier_for_size`, with explicit fuel.  For
`size_ratio ≥ 2` the loop needs at most `log₂ size` iterations, so fuel
`size` is never exhausted; for `size_ratio ≤ 1` the source itself never
terminates. -/
def tierLoop (base size : Nat) : Nat → Nat → Nat → Nat
  | 0, tier, _ => tier
  | fuel + 1, tier, ub => if ub < size then tierLoop base size fuel (tier + 1) (ub * base) else tier

/-- `SizeTieredCompaction::tier_for_size`: tier 0 covers `[0, 4 MiB]`, each
next tier multiplies the upper bound by `size_ratio`. -/
def tier_for_size (ratio size : Nat) : Nat :=
  if size = 0 then 0 else tierLoop ratio size size 0 4194304

/-- Ascending insertion (without duplicates) into a sorted list of tiers:
the iteration order of the source's `BTreeMap<usize, Vec<usize>>`. -/
def insertTier (x : Nat) : List Nat → List Nat
  | [] => [x]
  | y :: ys =>
    if x < y then x :: y :: ys
    else if x = y then y :: ys
    else y :: insertTier x ys

/-- The ascending list of distinct tiers occupied by the tables. -/
def sortedTiers (ts : List Nat) : List Nat :=
  ts.foldr insertTier []

/-- Scan tiers in ascending order; return the first tier whose table count
reaches the threshold.  `tagged` is the `(enumeration index, tier)` list: the
source groups `sstables.iter().enumerate()` by tier and pushes `idx` — the
positional index, not the table's `id` field. -/
def findTier (threshold : Nat) (tagged : List (Nat × Nat)) : List Nat → Option (List Nat)
  | [] => none
  | t :: ts =>
    let ids := (tagged.filter fun p => p.2 = t).map Prod.fst
    if ids.length ≥ threshold then some ids else findTier threshold tagged ts

/-- `SizeTieredCompaction::select_compaction` for a strategy with the given
`threshold` and `size_ratio`. -/
def select_compaction (threshold ratio : Nat) (sstables : List SStableInfo) :
    Option (List Nat) :=
  if sstables.isEmpty then none
  else
    let tagged := sstables.enum.map fun p => (p.1, tier_for_size ratio p.2.size)
    findTier threshold tagged (sortedTiers (tagged.map Prod.snd))

theorem openEngine_empty_wal (maxSize : Nat) (ids : List Nat) :
    Oblivion.openEngine maxSize [] ids = ⟨MemTable.new, [], maxSize, 0⟩ := by
  unfold Oblivion.openEngine recover
  rw [recoverLoop_nil]


/-! ## Compaction merge (`compact_sstables` in `src/engine/compaction.rs`) -/

/-- Strict lexicographic order on byte keys: the `Ord` instance of `Vec<u8>`
that drives the source's `BTreeMap<Key, Value>`. -/
def keyLt : Key → Key → Bool
  | [], [] => false
  | [], _ :: _ => true
  | _ :: _, [] => false
  | a :: as, b :: bs => if a < b then true else if b < a then false else keyLt as bs

theorem keyLt_irrefl (a : Key) : keyLt a a = false := by
  induction a with
  | nil => rfl
  | cons x xs ih => simp [keyLt, ih]

theorem keyLt_trans {a b c : Key} (hab : keyLt a b = true) (hbc : keyLt b c = true) :
    keyLt a c = true := by
  induction a generalizing b c with
  | nil =>
    cases c with
    | nil =>
      cases b with
      | nil => exact absurd hab (by simp [keyLt])
      | cons y ys => exact absurd hbc (by simp [keyLt])
    | cons z zs => rfl
  | cons x xs ih =>
    cases b with
    | nil => exact absurd hab (by simp [keyLt])
    | cons y ys =>
      cases c with
      | nil => exact absurd hbc (by simp [keyLt])
      | cons z zs =>
        simp only [keyLt] at hab hbc ⊢
        split at hab
        · rename_i hxy
          split at hbc
          · rename_i hyz
            rw [if_pos (by omega)]
          · split at hbc
            · exact absurd hbc (by simp)
            · rename_i hzy hyz
              rw [if_pos (by omega)]
        · split at hab
          · exact absurd hab (by simp)
          · rename_i hyx hxy
            split at hbc
            · rename_i hyz
              rw [if_pos (by omega)]
            · split at hbc
              · exact absurd hbc (by simp)
              · rename_i hzy hyz
                rw [if_neg (by omega), if_neg (by omega)]
                exact ih hab hbc

theorem keyLt_conn {a b : Key} (hab : keyLt a b = false) (hba : keyLt b a = false) :
    a = b := by
  induction a generalizing b with
  | nil =>
    cases b with
    | nil => rfl
    | cons y ys => exact absurd hab (by simp [keyLt])
  | cons x xs ih =>
    cases b with
    | nil => exact absurd hba (by simp [keyLt])
    | cons y ys =>
      simp only [keyLt] at hab hba
      by_cases hxy : x < y
      · simp [hxy] at hab
      · by_cases hyx : y < x
        · simp [hyx] at hba
        · have hxeq : x = y := by omega
          simp [hxy, hyx] at hab hba
          rw [hxeq, ih hab hba]

theorem keyLt_asymm {a b : Key} (hab : keyLt a b = true) : keyLt b a = false := by
  by_contra hc
  have hba : keyLt b a = true := by
    cases h : keyLt b a
    · exact absurd h hc
    · rfl
  have := keyLt_trans hab hba
  rw [keyLt_irrefl] at this
  exact Bool.noConfusion this

/-- `BTreeMap::insert` on the merge map: keep the association list sorted by
`keyLt`, replacing the entry when the key is already present. -/
def insertSorted : List (Key × Value) → Key → Value → List (Key × Value)
  | [], k, v => [(k, v)]
  | (k', v') :: rest, k, v =>
    if keyLt k k' then (k, v) :: (k', v') :: rest
    else if keyLt k' k then (k', v') :: insertSorted rest k v
    else (k, v) :: rest

/-- First-match association lookup (`BTreeMap::get` on the merge map). -/
def mapLookup : List (Key × Value) → Key → Option Value
  | [], _ => none
  | (k', v') :: rest, k => if k' = k then some v' else mapLookup rest k

/-- `compact_sstables`: merge all entries into a sorted map (later tables
override earlier ones), then drop entries with an empty value (the source's
tombstone encoding at the compaction boundary). -/
def compact_sstables (sstables : List (List (Key × Value))) : List (Key × Value) :=
  let merged := sstables.foldl
    (fun m sst => sst.foldl (fun m2 kv => insertSorted m2 kv.1 kv.2) m) []
  merged.filter fun kv => !kv.2.isEmpty

/-- The newest write for a key in a list of `(key, value)` entries read
oldest-first: the value of the key's last occurrence, `none` if absent.
This is the spec's newest-wins fold, written independently of the merge-map
implementation. -/
def lastWrite : List (Key × Value) → Key → Option Value
  | [], _ => none
  | e :: rest, k =>
    match lastWrite rest k with
    | some v => some v
    | none => if e.1 = k then some e.2 else none

/-- Keys-sorted predicate for the merge map. -/
def SortedMap (m : List (Key × Value)) : Prop :=
  List.Pairwise (fun a b => keyLt a.1 b.1 = true) m

theorem mem_insertSorted_sub {m : List (Key × Value)} {k : Key} {v : Value}
    {x : Key × Value} (hx : x ∈ insertSorted m k v) : x = (k, v) ∨ x ∈ m := by
  induction m with
  | nil => simpa [insertSorted] using hx
  | cons e rest ih =>
    obtain ⟨k', v'⟩ := e
    unfold insertSorted at hx
    split at hx
    · rcases List.mem_cons.mp hx with rfl | hx2
      · exact Or.inl rfl
      · exact Or.inr hx2
    · split at hx
      · rcases List.mem_cons.mp hx with rfl | hx2
        · exact Or.inr (by simp)
        · rcases ih hx2 with rfl | hx3
          · exact Or.inl rfl
          · exact Or.inr (by simp [hx3])
      · rcases List.mem_cons.mp hx with rfl | hx2
        · exact Or.inl rfl
        · exact Or.inr (by simp [hx2])

theorem sortedMap_insertSorted {m : List (Key × Value)} (k : Key) (v : Value)
    (hs : SortedMap m) : SortedMap (insertSorted m k v) := by
  induction m with
  | nil => simp [insertSorted, SortedMap]
  | cons e rest ih =>
    obtain ⟨k', v'⟩ := e
    rw [SortedMap, List.pairwise_cons] at hs
    obtain ⟨hhead, hrest⟩ := hs
    unfold insertSorted
    split
    · rename_i hlt
      rw [SortedMap, List.pairwise_cons]
      refine ⟨?_, List.Pairwise.cons hhead hrest⟩
      intro b hb
      rcases List.mem_cons.mp hb with rfl | hb2
      · exact hlt
      · exact keyLt_trans hlt (hhead b hb2)
    · split
      · rename_i hge hgt
        rw [SortedMap, List.pairwise_cons]
        refine ⟨?_, ih hrest⟩
        intro b hb
        rcases mem_insertSorted_sub hb with rfl | hb2
        · exact hgt
        · exact hhead b hb2
      · rename_i hge hle
        have hkeq : k = k' := keyLt_conn (by simpa using hge) (by simpa using hle)
        rw [SortedMap, List.pairwise_cons]
        refine ⟨?_, hrest⟩
        intro b hb
        rw [hkeq]
        exact hhead b hb

theorem mapLookup_insertSorted (m : List (Key × Value)) (k : Key) (v : Value)
    (k' : Key) :
    mapLookup (insertSorted m k v) k' = if k = k' then some v else mapLookup m k' := by
  induction m with
  | nil => simp [insertSorted, mapLookup]
  | cons e rest ih =>
    obtain ⟨k0, v0⟩ := e
    unfold insertSorted
    split
    · rename_i hlt
      by_cases hk : k = k'
      · simp [mapLookup, hk]
      · simp [mapLookup, hk]
    · split
      · rename_i hge hgt
        have hne : k0 ≠ k := by
          intro hc
          rw [hc, keyLt_irrefl] at hgt
          exact Bool.noConfusion hgt
        by_cases hk0 : k0 = k'
        · have : k ≠ k' := fun hc => hne (hk0.trans hc.symm)
          simp [mapLookup, hk0, this]
        · simp [mapLookup, hk0, ih]
      · rename_i hge hle
        have hkeq : k = k0 := keyLt_conn (by simpa using hge) (by simpa using hle)
        by_cases hk : k = k'
        · simp [mapLookup, hk]
        · have hk0 : k0 ≠ k' := fun hc => hk (hkeq.trans hc)
          simp [mapLookup, hk, hk0, hkeq]

theorem mem_sortedMap_iff_lookup {m : List (Key × Value)} (hs : SortedMap m)
    (k : Key) (v : Value) : (k, v) ∈ m ↔ mapLookup m k = some v := by
  induction m with
  | nil => simp [mapLookup]
  | cons e rest ih =>
    obtain ⟨k0, v0⟩ := e
    rw [SortedMap, List.pairwise_cons] at hs
    obtain ⟨hhead, hrest⟩ := hs
    unfold mapLookup
    by_cases hk : k0 = k
    · subst hk
      simp only [if_pos rfl]
      constructor
      · intro hmem
        rcases List.mem_cons.mp hmem with heq | hmem2
        · simp at heq
          simp [heq]
        · have := hhead _ hmem2
          rw [keyLt_irrefl] at this
          exact Bool.noConfusion this
      · intro heq
        simp at heq
        simp [heq]
    · rw [if_neg hk]
      rw [← ih hrest]
      constructor
      · intro hmem
        rcases List.mem_cons.mp hmem with heq | hmem2
        · exact absurd (congrArg Prod.fst heq).symm hk
        · exact hmem2
      · intro hmem
        exact List.mem_cons_of_mem _ hmem

/-- Folding a batch of entries into the merge map. -/
def foldIns (m : List (Key × Value)) (L : List (Key × Value)) : List (Key × Value) :=
  L.foldl (fun m2 kv => insertSorted m2 kv.1 kv.2) m

theorem sortedMap_foldIns (L : List (Key × Value)) (m : List (Key × Value))
    (hs : SortedMap m) : SortedMap (foldIns m L) := by
  induction L generalizing m with
  | nil => exact hs
  | cons e L ih => exact ih _ (sortedMap_insertSorted e.1 e.2 hs)

theorem mapLookup_foldIns (L : List (Key × Value)) (m : List (Key × Value)) (k : Key) :
    mapLookup (foldIns m L) k =
      match lastWrite L k with
      | some v => some v
      | none => mapLookup m k := by
  induction L generalizing m with
  | nil => rfl
  | cons e L ih =>
    show mapLookup (foldIns (insertSorted m e.1 e.2) L) k = _
    rw [ih, show lastWrite (e :: L) k = (match lastWrite L k with
      | some v => some v
      | none => if e.1 = k then some e.2 else none) from rfl]
    cases hw : lastWrite L k with
    | some v => rfl
    | none =>
      rw [mapLookup_insertSorted]
      by_cases hk : e.1 = k
      · simp [hk]
      · simp [hk]

theorem foldl_foldIns_flatten (LL : List (List (Key × Value))) (m : List (Key × Value)) :
    LL.foldl (fun m2 sst => foldIns m2 sst) m = foldIns m LL.flatten := by
  induction LL generalizing m with
  | nil => rfl
  | cons L LL ih =>
    show LL.foldl (fun m2 sst => foldIns m2 sst) (foldIns m L) = foldIns m (L ++ LL.flatten)
    rw [ih, foldIns, foldIns, foldIns, List.foldl_append]

/-- Claim C7: `compact_sstables` on inputs listed oldest to newest returns exactly
the newest-wins fold of the inputs — sorted strictly ascending by key, and a
pair `(k, v)` is in the output iff `v` is the value of the last write of `k`
across the concatenated inputs and `v` is not the empty-value tombstone.  The
`↔` right-to-left direction is exactly "no key with a live final value is
dropped". -/
theorem claim_C7_compaction_newest_wins (sstables : List (List (Key × Value))) :
    SortedMap (compact_sstables sstables) ∧
    ∀ k v, (k, v) ∈ compact_sstables sstables ↔
      (lastWrite sstables.flatten k = some v ∧ v ≠ []) := by
  have hmerged : compact_sstables sstables =
      (foldIns [] sstables.flatten).filter (fun kv => !kv.2.isEmpty) := by
    unfold compact_sstables
    rw [show (fun m sst => List.foldl (fun m2 kv => insertSorted m2 kv.1 kv.2) m sst) =
      (fun m2 sst => foldIns m2 sst) from rfl, foldl_foldIns_flatten]
  have hsorted : SortedMap (foldIns [] sstables.flatten) :=
    sortedMap_foldIns _ _ (List.Pairwise.nil)
  constructor
  · rw [hmerged]
    exact List.Pairwise.filter _ hsorted
  · intro k v
    rw [hmerged, List.mem_filter]
    constructor
    · rintro ⟨hmem, hval⟩
      have hlk : mapLookup (foldIns [] sstables.flatten) k = some v :=
        (mem_sortedMap_iff_lookup hsorted k v).mp hmem
      rw [mapLookup_foldIns] at hlk
      refine ⟨?_, by simpa using hval⟩
      cases hw : lastWrite sstables.flatten k with
      | none => rw [hw] at hlk; exact Option.noConfusion hlk
      | some v2 =>
        rw [hw] at hlk
        exact hlk
    · rintro ⟨hw, hval⟩
      refine ⟨(mem_sortedMap_iff_lookup hsorted k v).mpr ?_, by simpa using hval⟩
      rw [mapLookup_foldIns, hw]

/-- Witness for C4 at a concrete hash function, filter and key set. -/
theorem claim_C4_bloom_no_false_negatives_witness :
    (0 < 64 ∧
      insertMany (fun _ _ => 0) (BloomFilter.with_params 64 2) ([] ++ [5] :: [[6]]) =
        some ⟨[1, 0, 0, 0, 0, 0, 0, 0], 64, 2, 2⟩) ∧
    BloomFilter.may_contain (fun _ _ => 0) ⟨[1, 0, 0, 0, 0, 0, 0, 0], 64, 2, 2⟩ [5] =
      some true :=
  ⟨⟨by decide, by decide⟩,
    claim_C4_bloom_no_false_negatives (fun _ _ => 0) 64 2 [] [[6]] [5] _
      (by decide) (by decide)⟩

/-- Claim C10: `BloomFilter::new` always yields `num_bits ≥ 64` (whatever the
floating-point sizing produced), while `with_params` applies no lower bound
to `num_bits` and only clamps `num_hashes` to `[2, 16]`; on a filter built by
`with_params 0 k`, both `insert` and `may_contain` hit the remainder-by-zero
in `hash_index` (modelled as `none`), so `num_bits > 0` is an unstated
precondition of those operations. -/
theorem claim_C10_bloom_num_bits_preconditions :
    (∀ rawBits rawHashes, 64 ≤ (BloomFilter.newFromRaw rawBits rawHashes).num_bits) ∧
    (∀ nb nh, (BloomFilter.with_params nb nh).num_bits = nb ∧
      2 ≤ (BloomFilter.with_params nb nh).num_hashes ∧
      (BloomFilter.with_params nb nh).num_hashes ≤ 16) ∧
    (∀ (H : Nat → List Nat → Nat) (key : List Nat) (nh : Nat),
      (BloomFilter.with_params 0 nh).insert H key = none ∧
      (BloomFilter.with_params 0 nh).may_contain H key = none) := by
  refine ⟨fun rb rh => ?_, fun nb nh => ⟨rfl, ?_, ?_⟩,
    fun H key nh => bloom_with_params_zero_panics H key nh⟩
  · show 64 ≤ max rb 64
    omega
  · show 2 ≤ min (max nh 2) 16
    omega
  · show min (max nh 2) 16 ≤ 16
    omega

/-- Claim C1 fails on the code: with `memtable_max_size = 1`, the `put` of key
`[107]`, value `[118]` crosses the flush threshold (the engine's
`flush_count` becomes 1), and afterwards `get [107]` returns `none` — the
flush cleared the MemTable, `SSTable::flush_from_memtable` is a stub that
persists nothing, and `Oblivion::get` reads only the MemTable.  With a large
threshold (no flush) the same `put` makes `get` return `some [118]`:
crossing the threshold changes the observable set of pairs. -/
theorem claim_C1_flush_drops_acknowledged_put :
    ((Oblivion.openEngine 100 [] []).put [107] [118]).get [107] = some [118] ∧
    ((Oblivion.openEngine 1 [] []).put [107] [118]).flush_count = 1 ∧
    ((Oblivion.openEngine 1 [] []).put [107] [118]).get [107] = none := by
  refine ⟨?_, ?_, ?_⟩ <;> rw [openEngine_empty_wal] <;> decide

/-- Claim C5 fails on the code: key `[107]` has expiration 5 recorded in a
`TtlIndex` and the wall clock reads 10 ≥ 5, so `TtlIndex::is_expired` is
`true`; yet the engine's `get` still returns the live MemTable value —
`Oblivion` holds no `TtlIndex` and `Oblivion::get` performs no expiration
check at all. -/
theorem claim_C5_get_ignores_ttl_expiration :
    (TtlIndex.set_expiration ⟨[]⟩ [107] 5).is_expired 10 [107] = true ∧
    ((Oblivion.openEngine 100 [] []).put [107] [118]).get [107] = some [118] := by
  refine ⟨by decide, ?_⟩
  rw [openEngine_empty_wal]
  decide

/-- Claim C8 fails on the code: for four 1 MiB tables (all in tier 0, meeting the
default threshold 4) whose `id` fields are 7, 8, 9, 10,
`select_compaction` returns `some [0, 1, 2, 3]` — the `enumerate()`
positions, not the tables' ids — and `some [0, 1, 2, 3] ≠ some [7, 8, 9, 10]`.
When no tier meets the threshold it does return `none`. -/
theorem claim_C8_select_compaction_returns_positions :
    select_compaction 4 10 [⟨7, 1048576, [], []⟩, ⟨8, 1048576, [], []⟩,
      ⟨9, 1048576, [], []⟩, ⟨10, 1048576, [], []⟩] = some [0, 1, 2, 3] ∧
    (some [0, 1, 2, 3] ≠ some [7, 8, 9, 10] : Prop) ∧
    select_compaction 4 10 [⟨7, 1048576, [], []⟩] = none := by
  refine ⟨by decide, by decide, by decide⟩

/-- Claim C9 fails on the code: `Oblivion::open` initializes `flush_count` to 0
unconditionally, for every configuration, WAL content and set of existing
SSTable ids — it never enumerates `sstable_{id:06}.sst` files.  In
particular, on a data dir already containing SSTable id 3 the counter is 0,
not one past the maximum existing id, so the next flush reuses id 0. -/
theorem claim_C9_open_initializes_flush_counter_to_zero :
    (∀ (maxSize : Nat) (walBytes ids : List Nat),
      (Oblivion.openEngine maxSize walBytes ids).flush_count = 0) ∧
    (Oblivion.openEngine 4194304 [] [3]).flush_count ≠ 3 + 1 :=
  ⟨fun _ _ _ => rfl, by decide⟩

end Oblivion